import Mathlib

/-!
Verification of the Cox-Ross-Rubinstein binomial option pricer in
`src/Binomial.py` (class `BinomialTree`).

The numeric core of the program — the forward price-lattice construction and
the backward-induction valuation in `calculate_all_nodes_for_puts` /
`calculate_all_nodes_for_calls` — receives `up`, `down`,
`risk_neutral_probability`, `steps`, `delta_time` and `interest_rate` as plain
parameters.  We embed that core generically over a `LinearOrderedField` so the
same definitions serve both for exact statements over `ℝ` (idealising the
Python floats as real arithmetic) and for concrete evaluation over `ℚ`.

The constructor-level code (`__init__`, `up_down`,
`risk_neutral_probability`), which applies `exp`/`sqrt` to the market inputs,
is embedded over `ℝ` with `Real.exp` / `Real.sqrt`.
-/

namespace Binomial

/-- The forward price lattice of `calculate_all_nodes_for_puts` /
`calculate_all_nodes_for_calls` (both build the identical dictionary `S`):
`S[0,0] = current_price`; for `i ≥ 1`, `S[i,j] = S[i-1,j-1] * up` when
`j > 0` and `S[i,0] = S[i-1,0] * down`.  The Python dict is defined only for
`0 ≤ j ≤ i`; we totalise step `0` to `S0` (the claims only look at
`j ≤ i`). -/
def latticeS {α : Type} [LinearOrderedField α] (S0 u d : α) : ℕ → ℕ → α
  | 0, _ => S0
  | i + 1, 0 => latticeS S0 u d i 0 * d
  | i + 1, j + 1 => latticeS S0 u d i j * u

/-- Intrinsic value of the put at node `(i,j)`: `strike - S[i,j]`
(the expression `strike - S[i, j]` of `calculate_all_nodes_for_puts`). -/
def putIntrinsic {α : Type} [LinearOrderedField α] (strike S0 u d : α) (i j : ℕ) : α :=
  strike - latticeS S0 u d i j

/-- Intrinsic value of the call at node `(i,j)`: `S[i,j] - strike`
(the expression `S[i, j] - strike` of `calculate_all_nodes_for_calls`). -/
def callIntrinsic {α : Type} [LinearOrderedField α] (strike S0 u d : α) (i j : ℕ) : α :=
  latticeS S0 u d i j - strike

/-- The value `P[i,j]` right after the line `P[i, j] = max(P[i, j], 0)` of the
backward loop, i.e. before the American override, indexed by the fuel
`m = steps - i` (so `m = 0` is the terminal step `i = steps`).  `intr i j`
is the intrinsic value at node `(i,j)` (put or call).  At the terminal step
the code first sets `P = max(intr, 0)` and then floors again; at an interior
step it sets `P` to the discounted expectation of the two children's *final*
values (the children were finished in the previous outer iteration, so they
already carry the American override when `amer` is set) and floors it. -/
def preVal {α : Type} [LinearOrderedField α] (q disc : α) (intr : ℕ → ℕ → α)
    (amer : Bool) (N : ℕ) : ℕ → ℕ → α
  | 0, j => max (max (intr N j) 0) 0
  | m + 1, j =>
      let vup := preVal q disc intr amer N m (j + 1)
      let vdn := preVal q disc intr amer N m j
      let fup := if amer then max vup (intr (N - m) (j + 1)) else vup
      let fdn := if amer then max vdn (intr (N - m) j) else vdn
      max (disc * (q * fup + (1 - q) * fdn)) 0

/-- The final stored value `P[i,j]` at fuel `m = steps - i`: the floored value
`preVal`, overridden by `max` with the intrinsic value exactly when
`american_or_european == "A"` (the trailing `if` of the backward loop). -/
def finVal {α : Type} [LinearOrderedField α] (q disc : α) (intr : ℕ → ℕ → α)
    (amer : Bool) (N m j : ℕ) : α :=
  if amer then max (preVal q disc intr amer N m j) (intr (N - m) j)
  else preVal q disc intr amer N m j

/-- The stored flag `exercise[i,j]` at fuel `m = steps - i`: the code writes
`"no"` when the floored value strictly exceeds the intrinsic value
(`P[i, j] > intrinsic`) and `"yes"` otherwise, before the American
override. -/
def flagVal {α : Type} [LinearOrderedField α] (q disc : α) (intr : ℕ → ℕ → α)
    (amer : Bool) (N m j : ℕ) : String :=
  if intr (N - m) j < preVal q disc intr amer N m j then "no" else "yes"

/-- The dictionary entry `P[i,j]` of `calculate_all_nodes_for_puts`, indexed by
the node `(i,j)` (valid for `0 ≤ j ≤ i ≤ N`). -/
def putValue {α : Type} [LinearOrderedField α] (strike S0 u d q disc : α)
    (amer : Bool) (N i j : ℕ) : α :=
  finVal q disc (putIntrinsic strike S0 u d) amer N (N - i) j

/-- The dictionary entry `exercise[i,j]` of `calculate_all_nodes_for_puts`. -/
def putFlag {α : Type} [LinearOrderedField α] (strike S0 u d q disc : α)
    (amer : Bool) (N i j : ℕ) : String :=
  flagVal q disc (putIntrinsic strike S0 u d) amer N (N - i) j

/-- The dictionary entry `P[i,j]` of `calculate_all_nodes_for_calls`, indexed by
the node `(i,j)`. -/
def callValue {α : Type} [LinearOrderedField α] (strike S0 u d q disc : α)
    (amer : Bool) (N i j : ℕ) : α :=
  finVal q disc (callIntrinsic strike S0 u d) amer N (N - i) j

/-- The dictionary entry `exercise[i,j]` of `calculate_all_nodes_for_calls`. -/
def callFlag {α : Type} [LinearOrderedField α] (strike S0 u d q disc : α)
    (amer : Bool) (N i j : ℕ) : String :=
  flagVal q disc (callIntrinsic strike S0 u d) amer N (N - i) j

/-- Closed form of the forward lattice: `S[i,j] = S0 * u^j * d^(i-j)` on the
valid triangle `j ≤ i`. -/
theorem latticeS_closed {α : Type} [LinearOrderedField α] (S0 u d : α) :
    ∀ i j : ℕ, j ≤ i → latticeS S0 u d i j = S0 * u ^ j * d ^ (i - j) := by
  intro i
  induction i with
  | zero =>
      intro j hj
      interval_cases j
      simp [latticeS]
  | succ i ih =>
      intro j hj
      cases j with
      | zero =>
          have h0 : latticeS S0 u d (i + 1) 0 = latticeS S0 u d i 0 * d := rfl
          rw [h0, ih 0 (Nat.zero_le i)]
          simp [pow_succ, mul_assoc]
      | succ j =>
          have hj' : j ≤ i := Nat.succ_le_succ_iff.mp hj
          have h0 : latticeS S0 u d (i + 1) (j + 1) = latticeS S0 u d i j * u := rfl
          rw [h0, ih j hj']
          have hsub : i + 1 - (j + 1) = i - j := by omega
          rw [hsub, pow_succ]
          ring

/-- For either style, the stored value at the terminal step (`fuel 0`) is
`max(intrinsic, 0)` after the redundant second floor. -/
theorem preVal_zero {α : Type} [LinearOrderedField α] (q disc : α) (intr : ℕ → ℕ → α)
    (amer : Bool) (N j : ℕ) :
    preVal q disc intr amer N 0 j = max (intr N j) 0 := by
  show max (max (intr N j) 0) 0 = max (intr N j) 0
  rw [max_assoc, max_self]

/-- Unfolding of an interior step of the backward loop: the floored value at
fuel `m+1` is the floored discounted expectation of the two children's final
values at fuel `m`. -/
theorem preVal_succ {α : Type} [LinearOrderedField α] (q disc : α) (intr : ℕ → ℕ → α)
    (amer : Bool) (N m j : ℕ) :
    preVal q disc intr amer N (m + 1) j =
      max (disc * (q * finVal q disc intr amer N m (j + 1)
        + (1 - q) * finVal q disc intr amer N m j)) 0 := by
  simp only [preVal, finVal]

/-- With European style the trailing override is skipped and the final value
is the floored value. -/
theorem finVal_false {α : Type} [LinearOrderedField α] (q disc : α) (intr : ℕ → ℕ → α)
    (N m j : ℕ) :
    finVal q disc intr false N m j = preVal q disc intr false N m j := rfl

/-- C1: for every European-style pricing run, the value lattice satisfies the
backward-induction definition: at the terminal step
`V[N,j] = max(payoff(S[N,j], K), 0)` with payoff `K - S` for the put and
`S - K` for the call, and at every interior node `(i,j)` with `i < N`,
`V[i,j] = max(exp(-r*dt) * (p*V[i+1,j+1] + (1-p)*V[i+1,j]), 0)`, with no
intrinsic-value override applied. -/
theorem european_backward_induction {α : Type} [LinearOrderedField α]
    (strike S0 u d q disc : α) (N i j jN : ℕ) (hi : i < N) :
    (putValue strike S0 u d q disc false N N jN
        = max (strike - latticeS S0 u d N jN) 0 ∧
      callValue strike S0 u d q disc false N N jN
        = max (latticeS S0 u d N jN - strike) 0) ∧
    (putValue strike S0 u d q disc false N i j =
        max (disc * (q * putValue strike S0 u d q disc false N (i + 1) (j + 1)
          + (1 - q) * putValue strike S0 u d q disc false N (i + 1) j)) 0 ∧
      callValue strike S0 u d q disc false N i j =
        max (disc * (q * callValue strike S0 u d q disc false N (i + 1) (j + 1)
          + (1 - q) * callValue strike S0 u d q disc false N (i + 1) j)) 0) := by
  have hfuel : N - i = (N - (i + 1)) + 1 := by omega
  constructor
  · constructor
    · show finVal q disc (putIntrinsic strike S0 u d) false N (N - N) jN = _
      rw [Nat.sub_self, finVal_false, preVal_zero]
      rfl
    · show finVal q disc (callIntrinsic strike S0 u d) false N (N - N) jN = _
      rw [Nat.sub_self, finVal_false, preVal_zero]
      rfl
  · constructor
    · show finVal q disc (putIntrinsic strike S0 u d) false N (N - i) j = _
      rw [finVal_false, hfuel, preVal_succ]
      rfl
    · show finVal q disc (callIntrinsic strike S0 u d) false N (N - i) j = _
      rw [finVal_false, hfuel, preVal_succ]
      rfl

theorem european_backward_induction_witness :
    (putValue (90 : ℚ) 100 2 (1/2) (1/3) 1 false 1 1 0
        = max ((90 : ℚ) - latticeS 100 2 (1/2) 1 0) 0 ∧
      callValue (90 : ℚ) 100 2 (1/2) (1/3) 1 false 1 1 0
        = max (latticeS (100 : ℚ) 2 (1/2) 1 0 - 90) 0) ∧
    (putValue (90 : ℚ) 100 2 (1/2) (1/3) 1 false 1 0 0 =
        max ((1 : ℚ) * ((1/3) * putValue 90 100 2 (1/2) (1/3) 1 false 1 1 1
          + (1 - 1/3) * putValue 90 100 2 (1/2) (1/3) 1 false 1 1 0)) 0 ∧
      callValue (90 : ℚ) 100 2 (1/2) (1/3) 1 false 1 0 0 =
        max ((1 : ℚ) * ((1/3) * callValue 90 100 2 (1/2) (1/3) 1 false 1 1 1
          + (1 - 1/3) * callValue 90 100 2 (1/2) (1/3) 1 false 1 1 0)) 0) :=
  european_backward_induction 90 100 2 (1/2) (1/3) 1 1 0 0 0 (by decide)

/-- C2: for every pricer with `N ≥ 1` steps, the lattice built by the forward
recurrence satisfies the closed form `S[i,j] = S0 * u^j * d^(i-j)` at every
node with `0 ≤ j ≤ i ≤ N`. -/
theorem lattice_closed_form {α : Type} [LinearOrderedField α] (S0 u d : α)
    (N i j : ℕ) (hN : 1 ≤ N) (hj : j ≤ i) (hi : i ≤ N) :
    latticeS S0 u d i j = S0 * u ^ j * d ^ (i - j) :=
  latticeS_closed S0 u d i j hj

theorem lattice_closed_form_witness :
    latticeS (100 : ℚ) 2 3 2 1 = 100 * 2 ^ 1 * 3 ^ (2 - 1) :=
  lattice_closed_form 100 2 3 2 2 1 (by decide) (by decide) (by decide)

/-- Every stored floored value is nonnegative: both branches of the backward
loop end in `max(..., 0)`. -/
theorem preVal_nonneg {α : Type} [LinearOrderedField α] (q disc : α) (intr : ℕ → ℕ → α)
    (amer : Bool) (N m j : ℕ) : 0 ≤ preVal q disc intr amer N m j := by
  cases m with
  | zero => exact le_max_right _ _
  | succ m => exact le_max_right _ _

/-- Every final stored value is nonnegative: the American override only takes
a `max` with the (possibly negative) intrinsic value on top of the floored
value. -/
theorem finVal_nonneg {α : Type} [LinearOrderedField α] (q disc : α) (intr : ℕ → ℕ → α)
    (amer : Bool) (N m j : ℕ) : 0 ≤ finVal q disc intr amer N m j := by
  cases amer with
  | false => exact preVal_nonneg q disc intr false N m j
  | true => exact le_trans (preVal_nonneg q disc intr true N m j) (le_max_left _ _)

/-- C9: for every pricing run, every node `(i,j)`, both payoffs (put and
call), and both exercise styles, the computed option value satisfies
`V[i,j] ≥ 0`. -/
theorem value_nonneg {α : Type} [LinearOrderedField α] (strike S0 u d q disc : α)
    (amer : Bool) (N i j : ℕ) :
    0 ≤ putValue strike S0 u d q disc amer N i j ∧
    0 ≤ callValue strike S0 u d q disc amer N i j :=
  ⟨finVal_nonneg q disc (putIntrinsic strike S0 u d) amer N (N - i) j,
   finVal_nonneg q disc (callIntrinsic strike S0 u d) amer N (N - i) j⟩

/-- With `p ∈ [0,1]` and a nonnegative discount factor, the American floored
value dominates the European floored value at every fuel level (the override
at the children can only raise the discounted expectation). -/
theorem preVal_amer_le {α : Type} [LinearOrderedField α] (q disc : α) (intr : ℕ → ℕ → α)
    (N : ℕ) (h0 : 0 ≤ q) (h1 : q ≤ 1) (hd : 0 ≤ disc) :
    ∀ m j, preVal q disc intr false N m j ≤ preVal q disc intr true N m j := by
  intro m
  induction m with
  | zero => intro j; exact le_refl _
  | succ m ih =>
      intro j
      rw [preVal_succ, preVal_succ]
      have hf : ∀ j', finVal q disc intr false N m j' ≤ finVal q disc intr true N m j' := by
        intro j'
        calc finVal q disc intr false N m j' = preVal q disc intr false N m j' := rfl
          _ ≤ preVal q disc intr true N m j' := ih j'
          _ ≤ max (preVal q disc intr true N m j') (intr (N - m) j') := le_max_left _ _
          _ = finVal q disc intr true N m j' := rfl
      refine max_le_max ?_ (le_refl 0)
      refine mul_le_mul_of_nonneg_left ?_ hd
      exact add_le_add (mul_le_mul_of_nonneg_left (hf _) h0)
        (mul_le_mul_of_nonneg_left (hf _) (by linarith))

/-- Lift of `preVal_amer_le` to the final stored values. -/
theorem finVal_amer_le {α : Type} [LinearOrderedField α] (q disc : α) (intr : ℕ → ℕ → α)
    (N : ℕ) (h0 : 0 ≤ q) (h1 : q ≤ 1) (hd : 0 ≤ disc) (m j : ℕ) :
    finVal q disc intr false N m j ≤ finVal q disc intr true N m j :=
  le_trans (preVal_amer_le q disc intr N h0 h1 hd m j)
    (le_max_left (preVal q disc intr true N m j) (intr (N - m) j))

/-- C7: for every parameter set with risk-neutral probability `p ∈ [0,1]` (and
nonnegative discount factor, as `exp(-r*dt)` always is) and for both put and
call payoffs, the American-style value at every node `(i,j)` is greater than
or equal to the European-style value at the same node with otherwise
identical parameters. -/
theorem american_ge_european {α : Type} [LinearOrderedField α] (strike S0 u d q disc : α)
    (N i j : ℕ) (h0 : 0 ≤ q) (h1 : q ≤ 1) (hd : 0 ≤ disc) :
    putValue strike S0 u d q disc false N i j ≤ putValue strike S0 u d q disc true N i j ∧
    callValue strike S0 u d q disc false N i j ≤ callValue strike S0 u d q disc true N i j :=
  ⟨finVal_amer_le q disc (putIntrinsic strike S0 u d) N h0 h1 hd (N - i) j,
   finVal_amer_le q disc (callIntrinsic strike S0 u d) N h0 h1 hd (N - i) j⟩

theorem american_ge_european_witness :
    putValue (90 : ℚ) 100 2 (1/2) (1/3) (9/10) false 2 0 0
        ≤ putValue (90 : ℚ) 100 2 (1/2) (1/3) (9/10) true 2 0 0 ∧
    callValue (90 : ℚ) 100 2 (1/2) (1/3) (9/10) false 2 0 0
        ≤ callValue (90 : ℚ) 100 2 (1/2) (1/3) (9/10) true 2 0 0 :=
  american_ge_european 90 100 2 (1/2) (1/3) (9/10) 2 0 0
    (by norm_num) (by norm_num) (by norm_num)

/-- With `p ∈ [0,1]` and a nonnegative discount factor, the floored value is
pointwise monotone in the intrinsic-value function. -/
theorem preVal_mono_intr {α : Type} [LinearOrderedField α] (q disc : α)
    (intr1 intr2 : ℕ → ℕ → α) (h : ∀ i j, intr1 i j ≤ intr2 i j) (amer : Bool) (N : ℕ)
    (h0 : 0 ≤ q) (h1 : q ≤ 1) (hd : 0 ≤ disc) :
    ∀ m j, preVal q disc intr1 amer N m j ≤ preVal q disc intr2 amer N m j := by
  intro m
  induction m with
  | zero =>
      intro j
      rw [preVal_zero, preVal_zero]
      exact max_le_max (h N j) (le_refl 0)
  | succ m ih =>
      intro j
      rw [preVal_succ, preVal_succ]
      have hf : ∀ j', finVal q disc intr1 amer N m j' ≤ finVal q disc intr2 amer N m j' := by
        intro j'
        cases amer with
        | false => exact ih j'
        | true =>
            show max (preVal q disc intr1 true N m j') (intr1 (N - m) j')
              ≤ max (preVal q disc intr2 true N m j') (intr2 (N - m) j')
            exact max_le_max (ih j') (h _ _)
      refine max_le_max ?_ (le_refl 0)
      refine mul_le_mul_of_nonneg_left ?_ hd
      exact add_le_add (mul_le_mul_of_nonneg_left (hf _) h0)
        (mul_le_mul_of_nonneg_left (hf _) (by linarith))

/-- Lift of `preVal_mono_intr` to the final stored values. -/
theorem finVal_mono_intr {α : Type} [LinearOrderedField α] (q disc : α)
    (intr1 intr2 : ℕ → ℕ → α) (h : ∀ i j, intr1 i j ≤ intr2 i j) (amer : Bool) (N : ℕ)
    (h0 : 0 ≤ q) (h1 : q ≤ 1) (hd : 0 ≤ disc) (m j : ℕ) :
    finVal q disc intr1 amer N m j ≤ finVal q disc intr2 amer N m j := by
  cases amer with
  | false => exact preVal_mono_intr q disc intr1 intr2 h false N h0 h1 hd m j
  | true =>
      show max (preVal q disc intr1 true N m j) (intr1 (N - m) j)
        ≤ max (preVal q disc intr2 true N m j) (intr2 (N - m) j)
      exact max_le_max (preVal_mono_intr q disc intr1 intr2 h true N h0 h1 hd m j) (h _ _)

/-- C8: for two parameter sets identical except the strike, `K1 ≤ K2` (with
`p ∈ [0,1]` and nonnegative discount factor), the put value at every node
under `K2` dominates the put value under `K1`, and the call value under `K2`
is dominated by the call value under `K1`, for both exercise styles. -/
theorem strike_monotone {α : Type} [LinearOrderedField α] (strike1 strike2 S0 u d q disc : α)
    (amer : Bool) (N i j : ℕ) (hK : strike1 ≤ strike2)
    (h0 : 0 ≤ q) (h1 : q ≤ 1) (hd : 0 ≤ disc) :
    putValue strike1 S0 u d q disc amer N i j ≤ putValue strike2 S0 u d q disc amer N i j ∧
    callValue strike2 S0 u d q disc amer N i j ≤ callValue strike1 S0 u d q disc amer N i j := by
  constructor
  · exact finVal_mono_intr q disc (putIntrinsic strike1 S0 u d) (putIntrinsic strike2 S0 u d)
      (fun i' j' => sub_le_sub_right hK _) amer N h0 h1 hd (N - i) j
  · exact finVal_mono_intr q disc (callIntrinsic strike2 S0 u d) (callIntrinsic strike1 S0 u d)
      (fun i' j' => sub_le_sub_left hK _) amer N h0 h1 hd (N - i) j

theorem strike_monotone_witness :
    putValue (90 : ℚ) 100 2 (1/2) (1/3) (9/10) true 2 0 0
        ≤ putValue (95 : ℚ) 100 2 (1/2) (1/3) (9/10) true 2 0 0 ∧
    callValue (95 : ℚ) 100 2 (1/2) (1/3) (9/10) true 2 0 0
        ≤ callValue (90 : ℚ) 100 2 (1/2) (1/3) (9/10) true 2 0 0 :=
  strike_monotone 90 95 100 2 (1/2) (1/3) (9/10) true 2 0 0
    (by norm_num) (by norm_num) (by norm_num) (by norm_num)

/-- The stored flag is `"no"` (hold) exactly when the floored value strictly
exceeds the intrinsic value (`P[i, j] > intrinsic` in the code). -/
theorem flagVal_no_iff {α : Type} [LinearOrderedField α] (q disc : α) (intr : ℕ → ℕ → α)
    (amer : Bool) (N m j : ℕ) :
    flagVal q disc intr amer N m j = "no" ↔
      intr (N - m) j < preVal q disc intr amer N m j := by
  by_cases h : intr (N - m) j < preVal q disc intr amer N m j
  · simp [flagVal, h]
  · simp [flagVal, h]

/-- Under American style, a node flagged `"yes"` (exercise) stores exactly the
intrinsic value: the flag means the floored value did not exceed the
intrinsic value, so the override `max` returns the intrinsic value. -/
theorem flagVal_yes_finVal {α : Type} [LinearOrderedField α] (q disc : α) (intr : ℕ → ℕ → α)
    (N m j : ℕ) (hy : flagVal q disc intr true N m j = "yes") :
    finVal q disc intr true N m j = intr (N - m) j := by
  have h : ¬ intr (N - m) j < preVal q disc intr true N m j := by
    intro hlt
    rw [flagVal, if_pos hlt] at hy
    exact absurd hy (by decide)
  exact max_eq_right (not_lt.mp h)

/-- C5: for every node and both payoffs the exercise flag is computed by the
same rule regardless of style: it is `"no"` (hold) exactly when the floored
discounted continuation value strictly exceeds the intrinsic value, and
`"yes"` (exercise) otherwise; moreover under American style, every node
flagged `"yes"` stores exactly the intrinsic value. -/
theorem exercise_flag_consistency {α : Type} [LinearOrderedField α]
    (strike S0 u d q disc : α) (amer : Bool) (N i j i2 j2 : ℕ)
    (hi : i < N) (hi2 : i2 ≤ N) :
    (putFlag strike S0 u d q disc amer N i j = "no" ↔
        strike - latticeS S0 u d i j
          < max (disc * (q * putValue strike S0 u d q disc amer N (i + 1) (j + 1)
              + (1 - q) * putValue strike S0 u d q disc amer N (i + 1) j)) 0) ∧
    (callFlag strike S0 u d q disc amer N i j = "no" ↔
        latticeS S0 u d i j - strike
          < max (disc * (q * callValue strike S0 u d q disc amer N (i + 1) (j + 1)
              + (1 - q) * callValue strike S0 u d q disc amer N (i + 1) j)) 0) ∧
    (putFlag strike S0 u d q disc true N i2 j2 = "yes" →
        putValue strike S0 u d q disc true N i2 j2 = strike - latticeS S0 u d i2 j2) ∧
    (callFlag strike S0 u d q disc true N i2 j2 = "yes" →
        callValue strike S0 u d q disc true N i2 j2 = latticeS S0 u d i2 j2 - strike) := by
  have hfuel : N - i = (N - (i + 1)) + 1 := by omega
  have hii : N - (N - i) = i := by omega
  have hii2 : N - (N - i2) = i2 := by omega
  refine ⟨?_, ?_, ?_, ?_⟩
  · rw [putFlag, flagVal_no_iff, hii, hfuel, preVal_succ]
    rfl
  · rw [callFlag, flagVal_no_iff, hii, hfuel, preVal_succ]
    rfl
  · intro hy
    have := flagVal_yes_finVal q disc (putIntrinsic strike S0 u d) N (N - i2) j2 hy
    rw [hii2] at this
    exact this
  · intro hy
    have := flagVal_yes_finVal q disc (callIntrinsic strike S0 u d) N (N - i2) j2 hy
    rw [hii2] at this
    exact this

theorem exercise_flag_consistency_witness :
    ((putFlag (90 : ℚ) 100 2 (1/2) (1/3) (9/10) true 1 0 0 = "no" ↔
        (90 : ℚ) - latticeS 100 2 (1/2) 0 0
          < max ((9/10 : ℚ) * ((1/3) * putValue 90 100 2 (1/2) (1/3) (9/10) true 1 1 1
              + (1 - 1/3) * putValue 90 100 2 (1/2) (1/3) (9/10) true 1 1 0)) 0) ∧
      (callFlag (90 : ℚ) 100 2 (1/2) (1/3) (9/10) true 1 0 0 = "no" ↔
        latticeS (100 : ℚ) 2 (1/2) 0 0 - 90
          < max ((9/10 : ℚ) * ((1/3) * callValue 90 100 2 (1/2) (1/3) (9/10) true 1 1 1
              + (1 - 1/3) * callValue 90 100 2 (1/2) (1/3) (9/10) true 1 1 0)) 0) ∧
      (putFlag (90 : ℚ) 100 2 (1/2) (1/3) (9/10) true 1 1 0 = "yes" →
        putValue (90 : ℚ) 100 2 (1/2) (1/3) (9/10) true 1 1 0
          = 90 - latticeS 100 2 (1/2) 1 0) ∧
      (callFlag (90 : ℚ) 100 2 (1/2) (1/3) (9/10) true 1 1 0 = "yes" →
        callValue (90 : ℚ) 100 2 (1/2) (1/3) (9/10) true 1 1 0
          = latticeS (100 : ℚ) 2 (1/2) 1 0 - 90)) :=
  exercise_flag_consistency 90 100 2 (1/2) (1/3) (9/10) true 1 0 0 1 0
    (by decide) (by decide)

/-- Embedding of `BinomialTree.up_down`: `up = exp(volatility * sqrt(delta_time))`,
`down = exp(-volatility * sqrt(delta_time))`. -/
noncomputable def up_down (volatility delta_time : ℝ) : ℝ × ℝ :=
  (Real.exp (volatility * Real.sqrt delta_time),
   Real.exp (-volatility * Real.sqrt delta_time))

/-- Embedding of `BinomialTree.risk_neutral_probability`:
`q = (exp((interest_rate - dividend_yield) * delta_time) - down) / (up - down)`.
The bound check on `delta_time` in the source is commented out; there is no
division-by-zero guard. -/
noncomputable def risk_neutral_probability
    (interest_rate dividend_yield delta_time up down : ℝ) : ℝ :=
  (Real.exp ((interest_rate - dividend_yield) * delta_time) - down) / (up - down)

/-- The attributes stored by `BinomialTree.__init__` (the Python object after
construction; `dividend_yield` is used but not stored). -/
structure BinomialTree where
  steps : ℕ
  delta_time : ℝ
  strike : ℝ
  current_price : ℝ
  volatility : ℝ
  interest_rate : ℝ
  american_or_european : String
  up : ℝ
  down : ℝ
  risk_neutral_probability : ℝ

/-- Embedding of `BinomialTree.__init__`: stores the parameters, computes
`delta_time = time_to_maturity / steps`, the up/down factors and the
risk-neutral probability.  The Python constructor performs no parameter
validation and raises no model-specific exception; the embedding is
accordingly a total function. -/
noncomputable def mkBinomialTree (steps : ℕ)
    (time_to_maturity strike current_price volatility interest_rate dividend_yield : ℝ)
    (american_or_european : String) : BinomialTree :=
  let delta_time := time_to_maturity / (steps : ℝ)
  let ud := up_down volatility delta_time
  ⟨steps, delta_time, strike, current_price, volatility, interest_rate,
   american_or_european, ud.1, ud.2,
   risk_neutral_probability interest_rate dividend_yield delta_time ud.1 ud.2⟩

/-- The dictionary `S` produced by `run()` (identical for puts and calls). -/
noncomputable def treeLattice (t : BinomialTree) (i j : ℕ) : ℝ :=
  latticeS t.current_price t.up t.down i j

/-- The value `put_P[i,j]` produced by `run()`: backward induction with the discount
factor `exp(-interest_rate * delta_time)` computed inside
`calculate_all_nodes_for_puts`, the American override applied exactly when
`self.american_or_european == "A"`. -/
noncomputable def treePutValue (t : BinomialTree) (i j : ℕ) : ℝ :=
  putValue t.strike t.current_price t.up t.down t.risk_neutral_probability
    (Real.exp (-t.interest_rate * t.delta_time))
    (decide (t.american_or_european = "A")) t.steps i j

/-- The flag `put_exercise[i,j]` produced by `run()`. -/
noncomputable def treePutFlag (t : BinomialTree) (i j : ℕ) : String :=
  putFlag t.strike t.current_price t.up t.down t.risk_neutral_probability
    (Real.exp (-t.interest_rate * t.delta_time))
    (decide (t.american_or_european = "A")) t.steps i j

/-- The value `call_P[i,j]` produced by `run()`. -/
noncomputable def treeCallValue (t : BinomialTree) (i j : ℕ) : ℝ :=
  callValue t.strike t.current_price t.up t.down t.risk_neutral_probability
    (Real.exp (-t.interest_rate * t.delta_time))
    (decide (t.american_or_european = "A")) t.steps i j

/-- The flag `call_exercise[i,j]` produced by `run()`. -/
noncomputable def treeCallFlag (t : BinomialTree) (i j : ℕ) : String :=
  callFlag t.strike t.current_price t.up t.down t.risk_neutral_probability
    (Real.exp (-t.interest_rate * t.delta_time))
    (decide (t.american_or_european = "A")) t.steps i j

/-- C3 (evaluation at the failing input): with `σ = 0` the construction
succeeds and yields `up = down = 1`, so the denominator `up - down` of the
risk-neutral probability is exactly `0`.  The Python code then divides by
zero in `risk_neutral_probability` (numpy returns `inf`/`nan` with only a
`RuntimeWarning`); no `DegenerateModelError` is raised — the class does not
exist anywhere in the code, contradicting the spec's error contract. -/
theorem sigma_zero_degenerate_silent :
    (mkBinomialTree 1 1 100 100 0 (5/100) 0 "E").up
        - (mkBinomialTree 1 1 100 100 0 (5/100) 0 "E").down = 0 ∧
    (mkBinomialTree 1 1 100 100 0 (5/100) 0 "E").up = 1 ∧
    (mkBinomialTree 1 1 100 100 0 (5/100) 0 "E").down = 1 := by
  have hu : (mkBinomialTree 1 1 100 100 0 (5/100) 0 "E").up = 1 := by
    simp [mkBinomialTree, up_down]
  have hdn : (mkBinomialTree 1 1 100 100 0 (5/100) 0 "E").down = 1 := by
    simp [mkBinomialTree, up_down]
  exact ⟨by rw [hu, hdn]; ring, hu, hdn⟩

/-- C4 (evaluation at the failing input): the constructor accepts a negative
spot price `S0 = -5` (and any other parameter values) without raising
anything — `__init__` performs no validation at all and no
`InvalidParameterError` class exists in the code. -/
theorem negative_spot_accepted :
    (mkBinomialTree 4 2 90 (-5) (2/10) (5/100) 0 "E").current_price = -5 ∧
    (mkBinomialTree 4 2 90 (-5) (2/10) (5/100) 0 "E").steps = 4 :=
  ⟨rfl, rfl⟩

/-- C10: for every style string other than exactly `"A"` (e.g. `"American"`,
`"a"`, `"E"`, or any invalid string) the pricer raises no error and computes
values and flags identical to a European-style run with the same parameters:
the American override is keyed on `american_or_european == "A"` exactly. -/
theorem non_A_style_is_european (steps : ℕ) (T K S0 sigma r qd : ℝ) (s : String)
    (i j : ℕ) (hs : s ≠ "A") :
    treePutValue (mkBinomialTree steps T K S0 sigma r qd s) i j
      = treePutValue (mkBinomialTree steps T K S0 sigma r qd "E") i j ∧
    treeCallValue (mkBinomialTree steps T K S0 sigma r qd s) i j
      = treeCallValue (mkBinomialTree steps T K S0 sigma r qd "E") i j ∧
    treePutFlag (mkBinomialTree steps T K S0 sigma r qd s) i j
      = treePutFlag (mkBinomialTree steps T K S0 sigma r qd "E") i j ∧
    treeCallFlag (mkBinomialTree steps T K S0 sigma r qd s) i j
      = treeCallFlag (mkBinomialTree steps T K S0 sigma r qd "E") i j := by
  have hb : (decide (s = "A")) = false := decide_eq_false hs
  have hb2 : (decide (("E" : String) = "A")) = false := by decide
  refine ⟨?_, ?_, ?_, ?_⟩
  · simp only [treePutValue, mkBinomialTree]
    rw [hb, hb2]
  · simp only [treeCallValue, mkBinomialTree]
    rw [hb, hb2]
  · simp only [treePutFlag, mkBinomialTree]
    rw [hb, hb2]
  · simp only [treeCallFlag, mkBinomialTree]
    rw [hb, hb2]

theorem non_A_style_is_european_witness :
    treePutValue (mkBinomialTree 4 2 90 100 (2/10) (5/100) 0 "American") 0 0
      = treePutValue (mkBinomialTree 4 2 90 100 (2/10) (5/100) 0 "E") 0 0 ∧
    treeCallValue (mkBinomialTree 4 2 90 100 (2/10) (5/100) 0 "American") 0 0
      = treeCallValue (mkBinomialTree 4 2 90 100 (2/10) (5/100) 0 "E") 0 0 ∧
    treePutFlag (mkBinomialTree 4 2 90 100 (2/10) (5/100) 0 "American") 0 0
      = treePutFlag (mkBinomialTree 4 2 90 100 (2/10) (5/100) 0 "E") 0 0 ∧
    treeCallFlag (mkBinomialTree 4 2 90 100 (2/10) (5/100) 0 "American") 0 0
      = treeCallFlag (mkBinomialTree 4 2 90 100 (2/10) (5/100) 0 "E") 0 0 :=
  non_A_style_is_european 4 2 90 100 (2/10) (5/100) 0 "American" 0 0 (by decide)

/-- Telescoping identity for the European run: since with `p ∈ [0,1]` and a
nonnegative discount factor every floor `max(·,0)` in the backward loop is a
no-op on the call-minus-put difference, that difference satisfies the linear
discounted-expectation recursion and equals
`S[i,j] * ((p*u + (1-p)*d) * disc)^(N-i) - K * disc^(N-i)` at fuel `m = N-i`. -/
theorem euroCallSubPut {α : Type} [LinearOrderedField α] (strike S0 u d q disc : α)
    (N : ℕ) (h0 : 0 ≤ q) (h1 : q ≤ 1) (hd : 0 ≤ disc) :
    ∀ m, m ≤ N → ∀ j, j ≤ N - m →
      finVal q disc (callIntrinsic strike S0 u d) false N m j
        - finVal q disc (putIntrinsic strike S0 u d) false N m j
      = latticeS S0 u d (N - m) j * ((q * u + (1 - q) * d) * disc) ^ m
        - strike * disc ^ m := by
  intro m
  induction m with
  | zero =>
      intro _ j _
      rw [finVal_false, finVal_false, preVal_zero, preVal_zero]
      simp only [callIntrinsic, putIntrinsic, Nat.sub_zero, pow_zero, mul_one]
      rcases le_total (latticeS S0 u d N j) strike with h | h
      · rw [max_eq_right (sub_nonpos.mpr h), max_eq_left (sub_nonneg.mpr h)]
        ring
      · rw [max_eq_left (sub_nonneg.mpr h), max_eq_right (sub_nonpos.mpr h)]
        ring
  | succ m ih =>
      intro hm j hj
      have hmN : m ≤ N := by omega
      have hj1 : j + 1 ≤ N - m := by omega
      have hj0 : j ≤ N - m := by omega
      rw [finVal_false, finVal_false, preVal_succ, preVal_succ]
      have hcall : 0 ≤ disc * (q * finVal q disc (callIntrinsic strike S0 u d) false N m (j + 1)
          + (1 - q) * finVal q disc (callIntrinsic strike S0 u d) false N m j) :=
        mul_nonneg hd (add_nonneg
          (mul_nonneg h0 (finVal_nonneg q disc (callIntrinsic strike S0 u d) false N m (j + 1)))
          (mul_nonneg (by linarith) (finVal_nonneg q disc (callIntrinsic strike S0 u d) false N m j)))
      have hput : 0 ≤ disc * (q * finVal q disc (putIntrinsic strike S0 u d) false N m (j + 1)
          + (1 - q) * finVal q disc (putIntrinsic strike S0 u d) false N m j) :=
        mul_nonneg hd (add_nonneg
          (mul_nonneg h0 (finVal_nonneg q disc (putIntrinsic strike S0 u d) false N m (j + 1)))
          (mul_nonneg (by linarith) (finVal_nonneg q disc (putIntrinsic strike S0 u d) false N m j)))
      rw [max_eq_left hcall, max_eq_left hput]
      have e1 := ih hmN (j + 1) hj1
      have e2 := ih hmN j hj0
      have hNm : N - m = (N - (m + 1)) + 1 := by omega
      have hup : latticeS S0 u d (N - m) (j + 1) = latticeS S0 u d (N - (m + 1)) j * u := by
        rw [hNm]
        rfl
      have hdown : latticeS S0 u d (N - m) j = latticeS S0 u d (N - (m + 1)) j * d := by
        rw [latticeS_closed S0 u d (N - m) j hj0, latticeS_closed S0 u d (N - (m + 1)) j hj]
        rw [show N - m - j = (N - (m + 1) - j) + 1 by omega, pow_succ]
        ring
      rw [hup] at e1
      rw [hdown] at e2
      calc disc * (q * finVal q disc (callIntrinsic strike S0 u d) false N m (j + 1)
              + (1 - q) * finVal q disc (callIntrinsic strike S0 u d) false N m j)
            - disc * (q * finVal q disc (putIntrinsic strike S0 u d) false N m (j + 1)
              + (1 - q) * finVal q disc (putIntrinsic strike S0 u d) false N m j)
          = disc * (q * (finVal q disc (callIntrinsic strike S0 u d) false N m (j + 1)
              - finVal q disc (putIntrinsic strike S0 u d) false N m (j + 1))
            + (1 - q) * (finVal q disc (callIntrinsic strike S0 u d) false N m j
              - finVal q disc (putIntrinsic strike S0 u d) false N m j)) := by ring
        _ = disc * (q * (latticeS S0 u d (N - (m + 1)) j * u
                * ((q * u + (1 - q) * d) * disc) ^ m - strike * disc ^ m)
            + (1 - q) * (latticeS S0 u d (N - (m + 1)) j * d
                * ((q * u + (1 - q) * d) * disc) ^ m - strike * disc ^ m)) := by
              rw [e1, e2]
        _ = latticeS S0 u d (N - (m + 1)) j * ((q * u + (1 - q) * d) * disc) ^ (m + 1)
              - strike * disc ^ (m + 1) := by
              rw [pow_succ, pow_succ]
              ring

/-- Specialisation of `euroCallSubPut` to the root node `(0,0)`. -/
theorem euroRootDiff {α : Type} [LinearOrderedField α] (strike S0 u d q disc : α)
    (N : ℕ) (h0 : 0 ≤ q) (h1 : q ≤ 1) (hd : 0 ≤ disc) :
    callValue strike S0 u d q disc false N 0 0
      - putValue strike S0 u d q disc false N 0 0
    = S0 * ((q * u + (1 - q) * d) * disc) ^ N - strike * disc ^ N := by
  have hmain := euroCallSubPut strike S0 u d q disc N h0 h1 hd N le_rfl 0 (by omega)
  rw [Nat.sub_self] at hmain
  simp only [latticeS] at hmain
  simpa only [callValue, putValue, Nat.sub_zero] using hmain

/-- The risk-neutral weights recover the per-step growth factor:
`p*u + (1-p)*d = e` when `p = (e - d)/(u - d)` and `u ≠ d`. -/
theorem convexCombination {e u d : ℝ} (hne : u - d ≠ 0) :
    (e - d) / (u - d) * u + (1 - (e - d) / (u - d)) * d = e := by
  field_simp
  ring

/-- C6: for every valid European-style parameter set (`N ≥ 1`, `T > 0`,
`σ > 0`, so the model is non-degenerate) whose risk-neutral probability lies
in `[0,1]`, the root values satisfy put-call parity exactly over real
arithmetic: `Call(0,0) - Put(0,0) = S0*exp(-q*T) - K*exp(-r*T)`. -/
theorem put_call_parity (N : ℕ) (T K S0 sigma r qd : ℝ)
    (hN : 1 ≤ N) (hT : 0 < T) (hsig : 0 < sigma)
    (hp0 : 0 ≤ (mkBinomialTree N T K S0 sigma r qd "E").risk_neutral_probability)
    (hp1 : (mkBinomialTree N T K S0 sigma r qd "E").risk_neutral_probability ≤ 1) :
    treeCallValue (mkBinomialTree N T K S0 sigma r qd "E") 0 0
      - treePutValue (mkBinomialTree N T K S0 sigma r qd "E") 0 0
    = S0 * Real.exp (-qd * T) - K * Real.exp (-r * T) := by
  have hb2 : (decide (("E" : String) = "A")) = false := by decide
  have hNpos : (0 : ℝ) < (N : ℝ) := by
    have : (0 : ℕ) < N := by omega
    exact_mod_cast this
  have hNne : (N : ℝ) ≠ 0 := ne_of_gt hNpos
  have hDpos : 0 < T / (N : ℝ) := div_pos hT hNpos
  have hxpos : 0 < sigma * Real.sqrt (T / (N : ℝ)) :=
    mul_pos hsig (Real.sqrt_pos.mpr hDpos)
  have hdu : Real.exp (-sigma * Real.sqrt (T / (N : ℝ)))
      < Real.exp (sigma * Real.sqrt (T / (N : ℝ))) := by
    apply Real.exp_lt_exp.mpr
    nlinarith
  have hne : Real.exp (sigma * Real.sqrt (T / (N : ℝ)))
      - Real.exp (-sigma * Real.sqrt (T / (N : ℝ))) ≠ 0 :=
    sub_ne_zero.mpr (ne_of_gt hdu)
  simp only [mkBinomialTree, up_down, risk_neutral_probability] at hp0 hp1
  simp only [treeCallValue, treePutValue, mkBinomialTree, up_down,
    risk_neutral_probability, hb2]
  rw [euroRootDiff K S0 _ _ _ _ N hp0 hp1 (Real.exp_pos _).le]
  rw [convexCombination hne]
  have hmul : Real.exp ((r - qd) * (T / (N : ℝ))) * Real.exp (-r * (T / (N : ℝ)))
      = Real.exp (-qd * (T / (N : ℝ))) := by
    rw [← Real.exp_add]
    congr 1
    ring
  have he1 : Real.exp (-qd * (T / (N : ℝ))) ^ N = Real.exp (-qd * T) := by
    rw [← Real.exp_nat_mul]
    congr 1
    field_simp
    ring
  have he2 : Real.exp (-r * (T / (N : ℝ))) ^ N = Real.exp (-r * T) := by
    rw [← Real.exp_nat_mul]
    congr 1
    field_simp
    ring
  rw [hmul, he1, he2]

theorem put_call_parity_witness :
    treeCallValue (mkBinomialTree 1 1 100 100 1 0 0 "E") 0 0
      - treePutValue (mkBinomialTree 1 1 100 100 1 0 0 "E") 0 0
    = 100 * Real.exp (-0 * 1) - 100 * Real.exp (-0 * 1) := by
  have hle : Real.exp (-1 : ℝ) ≤ 1 := Real.exp_le_one_iff.mpr (by norm_num)
  have hlt : Real.exp (-1 : ℝ) < Real.exp 1 := Real.exp_lt_exp.mpr (by norm_num)
  have h1e : (1 : ℝ) ≤ Real.exp 1 := Real.one_le_exp_iff.mpr zero_le_one
  have hp0 : 0 ≤ (mkBinomialTree 1 1 100 100 1 0 0 "E").risk_neutral_probability := by
    simp only [mkBinomialTree, up_down, risk_neutral_probability]
    norm_num [Real.sqrt_one]
    apply div_nonneg <;> linarith
  have hp1 : (mkBinomialTree 1 1 100 100 1 0 0 "E").risk_neutral_probability ≤ 1 := by
    simp only [mkBinomialTree, up_down, risk_neutral_probability]
    norm_num [Real.sqrt_one]
    rw [div_le_one (by linarith)]
    linarith
  exact put_call_parity 1 1 100 100 1 0 0 (by norm_num) (by norm_num) (by norm_num) hp0 hp1

end Binomial
